import Mathlib

/-!
Verification of the time-aggregation core of the `workhoursrecord` VS Code
extension: the idle-aware session-tracking state machine and the day-bucketed
aggregators (`activityTracker.ts` and the commit-log aggregation in
`extension.ts`).

Timestamps are modelled as `Int` milliseconds (the value of `Date.now()` /
`Date.getTime()`); `Math.floor(x / 1000)` on such values is `Int.fdiv x 1000`.
Day keys are modelled as the integer UTC day index `fdiv t 86400000`, which
determines the `YYYY-MM-DD` string the source derives via
`toISOString().split('T')[0]`; string ordering of such dates agrees with the
numeric ordering of the day index.
-/

namespace WorkHours

/-- `IDLE_TIMEOUT_MS = 5 * 60 * 1000` (activityTracker.ts). -/
def IDLE_TIMEOUT_MS : Int := 5 * 60 * 1000

/-- `MIN_SESSION_SECONDS = 10` (activityTracker.ts). -/
def MIN_SESSION_SECONDS : Int := 10

/-- The `EditSession` interface of activityTracker.ts. -/
structure EditSession where
  startTime : Int
  endTime : Int
  languageId : String
  fileName : String
  durationSeconds : Int
deriving DecidableEq

/-- The mutable tracking fields of `ActivityTracker`. -/
structure TrackerState where
  isTracking : Bool
  currentLanguage : String
  currentFileName : String
  sessionStartTime : Int
  lastActivityTime : Int
deriving DecidableEq

/-- The tracker's initial field values. -/
def initialTracker : TrackerState :=
  { isTracking := false
    currentLanguage := ""
    currentFileName := ""
    sessionStartTime := 0
    lastActivityTime := 0 }

/-- `ActivityTracker.startSession`: open a session on the given document at `now`. -/
def startSession (s : TrackerState) (languageId fileName : String) (now : Int) :
    TrackerState :=
  { s with
    isTracking := true
    currentLanguage := languageId
    currentFileName := fileName
    sessionStartTime := now
    lastActivityTime := now }

/-- `ActivityTracker.endCurrentSession`: close the open session, using
`lastActivityTime` (not the current time) as its end.  Returns the updated state
together with the session handed to `saveSession`, which is `none` when the
tracker was idle or the duration is below `MIN_SESSION_SECONDS`. -/
def endCurrentSession (s : TrackerState) : TrackerState × Option EditSession :=
  if s.isTracking = false then (s, none)
  else
    let endTime := s.lastActivityTime
    let durationSeconds := Int.fdiv (endTime - s.sessionStartTime) 1000
    let saved :=
      if MIN_SESSION_SECONDS ≤ durationSeconds then
        some { startTime := s.sessionStartTime
               endTime := endTime
               languageId := s.currentLanguage
               fileName := s.currentFileName
               durationSeconds := durationSeconds }
      else none
    ({ s with
       isTracking := false
       currentLanguage := ""
       currentFileName := ""
       sessionStartTime := 0 }, saved)

/-- `ActivityTracker.recordActivity`: the `ping` transition.  Returns the new
state and the session closed by this ping, if any. -/
def recordActivity (s : TrackerState) (languageId fileName : String) (now : Int) :
    TrackerState × Option EditSession :=
  if s.isTracking = false then
    (startSession s languageId fileName now, none)
  else if languageId ≠ s.currentLanguage ∨ fileName ≠ s.currentFileName then
    let r := endCurrentSession s
    (startSession r.1 languageId fileName now, r.2)
  else if IDLE_TIMEOUT_MS < now - s.lastActivityTime then
    let r := endCurrentSession s
    (startSession r.1 languageId fileName now, r.2)
  else
    ({ s with lastActivityTime := now }, none)

/-- An activity ping: the document's language id and file name, plus the
`Date.now()` value at which the change event fires. -/
structure Ping where
  languageId : String
  fileName : String
  time : Int
deriving DecidableEq

/-- Feed one ping to the tracker, accumulating the sessions it hands to
`saveSession`. -/
def pingStep (acc : TrackerState × List EditSession) (p : Ping) :
    TrackerState × List EditSession :=
  let r := recordActivity acc.1 p.languageId p.fileName p.time
  (r.1, acc.2 ++ r.2.toList)

/-- Feed a stream of pings to the tracker. -/
def runPings (s : TrackerState) (ps : List Ping) : TrackerState × List EditSession :=
  ps.foldl pingStep (s, [])

/-- The time of the last ping in the list, defaulting to `t`. -/
def lastPingTime (t : Int) : List Ping → Int
  | [] => t
  | p :: rest => lastPingTime p.time rest

/-! ### Daily aggregates (activityTracker.ts `DailyEditStats` and its store) -/

/-- The `DailyEditStats` interface.  `date` is the UTC day index (see the file
header); `languageStats` models the `{ [key: string]: number }` object as an
insertion-ordered association list. -/
structure DailyEditStats where
  date : Int
  totalSeconds : Int
  languageStats : List (String × Int)
  sessions : List EditSession
deriving DecidableEq

/-- The fresh zero aggregate that `getDailyStats` returns when nothing is
stored for the key. -/
def emptyDailyStats (dateKey : Int) : DailyEditStats :=
  { date := dateKey, totalSeconds := 0, languageStats := [], sessions := [] }

/-- The `languageStats[lang] = (languageStats[lang] || 0) + d` update of
`saveSession` and `getTodayStats`: an existing key is bumped in place (a key
holding `0` behaves like an absent one, since `0` is falsy, and keeps its
position either way); an absent key is appended, matching JS object insertion
order. -/
def bumpLang : List (String × Int) → String → Int → List (String × Int)
  | [], lang, d => [(lang, d)]
  | (k, v) :: rest, lang, d =>
    if k = lang then (k, v + d) :: rest else (k, v) :: bumpLang rest lang d

/-- The mutation `saveSession` performs on the day's aggregate (lines 983–993):
add the duration to `totalSeconds` and to the language's entry, and append the
session to the audit trail. -/
def applySession (stats : DailyEditStats) (session : EditSession) : DailyEditStats :=
  { stats with
    totalSeconds := stats.totalSeconds + session.durationSeconds
    languageStats := bumpLang stats.languageStats session.languageId
      session.durationSeconds
    sessions := stats.sessions ++ [session] }

/-! ### Language percentages (activityTracker.ts `getLanguagePercentages`) -/

/-- The `LANGUAGE_DISPLAY_NAMES` table of activityTracker.ts. -/
def LANGUAGE_DISPLAY_NAMES : List (String × String) :=
  [("javascript", "JavaScript"), ("typescript", "TypeScript"),
   ("typescriptreact", "TypeScript React"), ("javascriptreact", "JavaScript React"),
   ("python", "Python"), ("java", "Java"), ("csharp", "C#"), ("cpp", "C++"),
   ("c", "C"), ("go", "Go"), ("rust", "Rust"), ("ruby", "Ruby"), ("php", "PHP"),
   ("swift", "Swift"), ("kotlin", "Kotlin"), ("html", "HTML"), ("css", "CSS"),
   ("scss", "SCSS"), ("less", "LESS"), ("json", "JSON"), ("yaml", "YAML"),
   ("xml", "XML"), ("markdown", "Markdown"), ("sql", "SQL"),
   ("shellscript", "Shell"), ("powershell", "PowerShell"),
   ("dockerfile", "Dockerfile"), ("vue", "Vue"), ("svelte", "Svelte"),
   ("plaintext", "纯文本")]

/-- `getLanguageDisplayName`: table lookup with fallback to the id itself. -/
def getLanguageDisplayName (languageId : String) : String :=
  match LANGUAGE_DISPLAY_NAMES.lookup languageId with
  | some name => name
  | none => languageId

/-- One element of the array `getLanguagePercentages` returns.  The JS float
`(seconds / total) * 100` is modelled exactly in `ℚ`. -/
structure LangShare where
  language : String
  displayName : String
  seconds : Int
  percentage : ℚ
deriving DecidableEq

/-- The element `getLanguagePercentages` pushes for one
`Object.entries(languageStats)` pair. -/
def mkLangShare (totalSeconds : Int) (entry : String × Int) : LangShare :=
  { language := entry.1
    displayName := getLanguageDisplayName entry.1
    seconds := entry.2
    percentage := ((entry.2 : ℚ) / (totalSeconds : ℚ)) * 100 }

/-- The order used by `result.sort((a, b) => b.seconds - a.seconds)`: seconds
descending.  `Array.prototype.sort` is stable, as is `List.insertionSort`
(earlier elements are kept in front of ties), so the stable insertion sort
models the call exactly. -/
def shareRel (a b : LangShare) : Prop := b.seconds ≤ a.seconds

instance : DecidableRel shareRel := fun a b =>
  inferInstanceAs (Decidable (b.seconds ≤ a.seconds))

instance : IsTotal LangShare shareRel :=
  ⟨fun a b => le_total b.seconds a.seconds⟩

instance : IsTrans LangShare shareRel :=
  ⟨fun _ _ _ hab hbc => le_trans hbc hab⟩

/-- `ActivityTracker.getLanguagePercentages` (lines 1079–1099): empty when
`totalSeconds === 0`, otherwise one element per `languageStats` entry, sorted
by seconds descending. -/
def getLanguagePercentages (stats : DailyEditStats) : List LangShare :=
  if stats.totalSeconds = 0 then []
  else List.insertionSort shareRel
    (stats.languageStats.map (mkLangShare stats.totalSeconds))

/-! ### The daily aggregate store (`context.globalState` under `editStats_` keys)

The tracker stores one `DailyEditStats` per day under the key
`editStats_<dateKey>`.  We model the `editStats_`-prefixed portion of the
Memento as an association list from the day key to the aggregate;
`Memento.update` with a value sets the key, with `undefined` removes it, and
`keys()` enumerates the stored keys. -/

/-- The store state: day key to aggregate bindings, in insertion order. -/
abbrev Store : Type := List (Int × DailyEditStats)

/-- `globalState.get(storageKey)`. -/
def storeGet (st : Store) (dateKey : Int) : Option DailyEditStats :=
  List.lookup dateKey st

/-- `globalState.update(storageKey, stats)`: replace the binding in place or
append a new one. -/
def storeSet : Store → Int → DailyEditStats → Store
  | [], dateKey, v => [(dateKey, v)]
  | (k, w) :: rest, dateKey, v =>
    if k = dateKey then (k, v) :: rest else (k, w) :: storeSet rest dateKey v

/-- `globalState.update(storageKey, undefined)`: remove the binding. -/
def storeRemove (st : Store) (dateKey : Int) : Store :=
  st.filter (fun p => !(p.1 == dateKey))

/-- `ActivityTracker.getDailyStats`: the stored aggregate, or a fresh zero
aggregate when nothing is stored. -/
def getDailyStats (st : Store) (dateKey : Int) : DailyEditStats :=
  match storeGet st dateKey with
  | some stored => stored
  | none => emptyDailyStats dateKey

/-- `ActivityTracker.saveDailyStats`. -/
def saveDailyStats (st : Store) (dateKey : Int) (stats : DailyEditStats) : Store :=
  storeSet st dateKey stats

/-- `ActivityTracker.clearDailyStats`: `globalState.update(key, undefined)`. -/
def clearDailyStats (st : Store) (dateKey : Int) : Store :=
  storeRemove st dateKey

/-- `ActivityTracker.getDateKey`: the UTC day the `toISOString` date string
denotes, as a day index. -/
def getDateKey (timestamp : Int) : Int :=
  Int.fdiv timestamp 86400000

/-- `ActivityTracker.saveSession` (lines 979–1002): read-modify-write of the
aggregate for the session's start day. -/
def saveSession (st : Store) (session : EditSession) : Store :=
  let dateKey := getDateKey session.startTime
  let stats := getDailyStats st dateKey
  saveDailyStats st dateKey (applySession stats session)

/-- `ActivityTracker.getAllStoredDates`: the stored day keys, sorted (the
source sorts the `YYYY-MM-DD` strings; their order is the numeric order of the
day index). -/
def getAllStoredDates (st : Store) : List Int :=
  List.insertionSort (fun a b : Int => a ≤ b) (st.map Prod.fst)

/-- `ActivityTracker.clearAllStats`: clear every stored date. -/
def clearAllStats (st : Store) : Store :=
  (getAllStoredDates st).foldl clearDailyStats st

/-! ### `getTodayStats` (the `getTodaySnapshot` operation) -/

/-- `ActivityTracker.getTodayStats` (lines 1051–1076): copy the stored
aggregate for today's key and, when tracking, fold in the provisional duration
`floor((lastActivityTime − sessionStartTime) / 1000)` provided it reaches
`MIN_SESSION_SECONDS`.  The copy the source builds is represented by the
returned value itself; nothing is written back to the store. -/
def getTodayStats (st : Store) (s : TrackerState) (now : Int) : DailyEditStats :=
  let today := getDateKey now
  let stats := getDailyStats st today
  if s.isTracking = true then
    let currentDuration := Int.fdiv (s.lastActivityTime - s.sessionStartTime) 1000
    if MIN_SESSION_SECONDS ≤ currentDuration then
      { stats with
        totalSeconds := stats.totalSeconds + currentDuration
        languageStats := bumpLang stats.languageStats s.currentLanguage
          currentDuration }
    else stats
  else stats

/-! ### Aliasing of aggregates returned by `getDailyStats`

`getDailyStats` returns the object obtained from `globalState.get` as is
(`return stored;`, line 1016) — no copy is made.  Its sibling `getTodayStats`
builds an explicit copy, with the source comment (line 1055) saying the copy
exists precisely to avoid modifying the stored data; so an aggregate returned
by `getDailyStats` for a stored key IS the cached stored instance, and an
in-place caller mutation of it lands in the store's cached object.  When the
key is absent, `getDailyStats` builds a fresh object and a mutation of it is
invisible to the store. -/

/-- A caller mutating, in place, the aggregate returned by
`getDailyStats st dateKey` via the mutation `m`: the resulting store state. -/
def mutateViaGetDailyStats (st : Store) (dateKey : Int)
    (m : DailyEditStats → DailyEditStats) : Store :=
  match storeGet st dateKey with
  | some stored => saveDailyStats st dateKey (m stored)
  | none => st

/-! ### `formatDuration` -/

/-- `ActivityTracker.formatDuration` (lines 1102–1114).  The call sites pass
non-negative whole totals, so `seconds : Nat` and `Nat` division model
`Math.floor` and `%` exactly.  The unit labels are the source's Chinese ones:
`小时` (hours), `分钟` (minutes), `秒` (seconds). -/
def formatDuration (seconds : Nat) : String :=
  let hours := seconds / 3600
  let minutes := (seconds % 3600) / 60
  let secs := seconds % 60
  if 0 < hours then toString hours ++ "小时" ++ toString minutes ++ "分钟"
  else if 0 < minutes then toString minutes ++ "分钟" ++ toString secs ++ "秒"
  else toString secs ++ "秒"

/-! ### Commit-log aggregation (`handleUpload` / `showWorkHours`)

Commit timestamps are `Date.getTime()` millisecond values (`Int`); the float
`hours = (last − first) / (1000*60*60)` is modelled exactly in `ℚ`.  The day
bucket the source derives from `toLocaleDateString()` is modelled as the day
index of the timestamp (a fixed-timezone calendar-day bucketing: timestamps on
the same calendar day share a bucket). -/

/-- The `CommitDetail` interface (`date` as its `getTime()` value). -/
structure CommitDetail where
  date : Int
  message : String
  hash : String
deriving DecidableEq

/-- The `DayWork` interface. -/
structure DayWork where
  day : Int
  firstCommit : Int
  lastCommit : Int
  hours : ℚ
  commits : List CommitDetail
deriving DecidableEq

/-- The `WorkRecord` interface. -/
structure WorkRecord where
  author : String
  commits : Int
  commitDetails : List CommitDetail
  dailyWork : List DayWork
  totalHours : ℚ
deriving DecidableEq

/-- One well-formed commit of the `git.log` result (`author_name`, parsed
`date`, `message`, `hash`). -/
structure RawCommit where
  author_name : String
  date : Int
  message : String
  hash : String
deriving DecidableEq

/-- One iteration of the `log.all.forEach` grouping loop: find or create the
author's record (authors keep first-seen order), bump its commit count and
push the detail. -/
def addCommit : List WorkRecord → RawCommit → List WorkRecord
  | [], c =>
    [{ author := c.author_name
       commits := 1
       commitDetails := [{ date := c.date, message := c.message, hash := c.hash }]
       dailyWork := []
       totalHours := 0 }]
  | r :: rest, c =>
    if r.author = c.author_name then
      { r with
        commits := r.commits + 1
        commitDetails := r.commitDetails ++
          [{ date := c.date, message := c.message, hash := c.hash }] } :: rest
    else r :: addCommit rest c

/-- The author-grouping phase of `handleUpload`. -/
def groupByAuthor (log : List RawCommit) : List WorkRecord :=
  log.foldl addCommit []

/-- The order used by `commitDetails.sort((a, b) => a.date.getTime() -
b.date.getTime())`: date ascending, ties kept in original order (stable). -/
def detailRel (a b : CommitDetail) : Prop := a.date ≤ b.date

instance : DecidableRel detailRel := fun a b =>
  inferInstanceAs (Decidable (a.date ≤ b.date))

/-- The calendar-day bucket of a timestamp (see section header). -/
def dayOf (timestamp : Int) : Int := Int.fdiv timestamp 86400000

/-- One iteration of the `dayMap` fill: append the commit to its day's list,
days kept in first-seen order. -/
def addToDayMap : List (Int × List CommitDetail) → Int → CommitDetail →
    List (Int × List CommitDetail)
  | [], day, c => [(day, [c])]
  | (d, cs) :: rest, day, c =>
    if d = day then (d, cs ++ [c]) :: rest
    else (d, cs) :: addToDayMap rest day c

/-- Group an author's (sorted) commit details by calendar day. -/
def buildDayMap (details : List CommitDetail) : List (Int × List CommitDetail) :=
  details.foldl (fun m c => addToDayMap m (dayOf c.date) c) []

/-- `commits[0].date` of a day group (day groups are never empty; the default
is unreachable). -/
def headDate : List CommitDetail → Int
  | [] => 0
  | c :: _ => c.date

/-- `commits[commits.length - 1].date` of a day group. -/
def lastDate : List CommitDetail → Int
  | [] => 0
  | [c] => c.date
  | _ :: c :: rest => lastDate (c :: rest)

/-- The `DayWork` pushed for one day group: `hours = (last − first) /
(1000*60*60)`. -/
def mkDayWork (day : Int) (cs : List CommitDetail) : DayWork :=
  { day := day
    firstCommit := headDate cs
    lastCommit := lastDate cs
    hours := ((lastDate cs - headDate cs : Int) : ℚ) / (1000 * 60 * 60)
    commits := cs }

/-- The per-author phase of `handleUpload` (lines 98–113): sort the details by
date, group by day, then push a `DayWork` and add its hours to `totalHours`
for each day group. -/
def finishRecord (rec : WorkRecord) : WorkRecord :=
  let sorted := List.insertionSort detailRel rec.commitDetails
  let groups := buildDayMap sorted
  groups.foldl
    (fun acc g =>
      { acc with
        dailyWork := acc.dailyWork ++ [mkDayWork g.1 g.2]
        totalHours := acc.totalHours + (mkDayWork g.1 g.2).hours })
    { rec with commitDetails := sorted }

/-- The whole commit-log aggregation: group by author, then build each
author's daily work. -/
def aggregateCommitLog (log : List RawCommit) : List WorkRecord :=
  (groupByAuthor log).map finishRecord

/-- A concrete two-commit log: `alice` commits at 0 ms and 90 minutes later. -/
def exampleLog : List RawCommit :=
  [{ author_name := "alice", date := 0, message := "m1", hash := "h1" },
   { author_name := "alice", date := 5400000, message := "m2", hash := "h2" }]

/-- The (only) author record `aggregateCommitLog` produces for `exampleLog`. -/
def exampleRecord : WorkRecord :=
  (aggregateCommitLog exampleLog).head (by decide)

/-- The (only) day record of `exampleRecord`. -/
def exampleDay : DayWork :=
  exampleRecord.dailyWork.head (by decide)

/-! ### The grouping loop on possibly-malformed records (C9)

The claim concerns commit records whose `author_name` or `date` field is
missing at runtime.  The grouping loop (`handleUpload` lines 88–96,
`showWorkHours` lines 149–167) reads `commit.author_name` and
`new Date(commit.date)` with no validation whatsoever: a missing author is
used as the `Map` key as is (`undefined`), and a missing date yields an
`Invalid Date` that is pushed along with the rest.  We therefore embed the
loop over entries with optional fields: `none` for a missing author key and
`none` for an invalid/missing parsed date. -/

/-- A raw log entry whose `author_name` / `date` may be absent. -/
structure LogEntry where
  author_name : Option String
  date : Option Int
  message : String
  hash : String
deriving DecidableEq

/-- An author bucket of the grouping loop, keyed by the possibly-missing
author name; details carry the possibly-invalid parsed date. -/
structure RawRecord where
  author : Option String
  commits : Int
  commitDetails : List (Option Int × String × String)
deriving DecidableEq

/-- One iteration of the unvalidated grouping loop. -/
def addLogEntry : List RawRecord → LogEntry → List RawRecord
  | [], c =>
    [{ author := c.author_name
       commits := 1
       commitDetails := [(c.date, c.message, c.hash)] }]
  | r :: rest, c =>
    if r.author = c.author_name then
      { r with
        commits := r.commits + 1
        commitDetails := r.commitDetails ++ [(c.date, c.message, c.hash)] } :: rest
    else r :: addLogEntry rest c

/-- The grouping phase over a raw log, malformed entries included. -/
def groupLogByAuthor (log : List LogEntry) : List RawRecord :=
  log.foldl addLogEntry []

theorem runPings_extend (L F : String) :
    ∀ (l : List Ping) (s : TrackerState) (acc : List EditSession),
      s.isTracking = true → s.currentLanguage = L → s.currentFileName = F →
      (∀ q ∈ l, q.languageId = L ∧ q.fileName = F) →
      List.Chain (fun a b => b - a ≤ IDLE_TIMEOUT_MS) s.lastActivityTime
        (l.map Ping.time) →
      l.foldl pingStep (s, acc) =
        ({ s with lastActivityTime := lastPingTime s.lastActivityTime l }, acc)
  | [], s, acc, _, _, _, _, _ => rfl
  | p :: rest, s, acc, htr, hL, hF, hall, hchain => by
    have hpl : p.languageId = L := (hall p (by simp)).1
    have hpf : p.fileName = F := (hall p (by simp)).2
    have hgap : p.time - s.lastActivityTime ≤ IDLE_TIMEOUT_MS := by
      cases hchain with
      | cons h _ => exact h
    have hstep : pingStep (s, acc) p = ({ s with lastActivityTime := p.time }, acc) := by
      simp only [pingStep, recordActivity, htr]
      rw [if_neg (by simp), if_neg (by simp [hpl, hL, hpf, hF]),
        if_neg (by omega)]
      simp
    have hchain' : List.Chain (fun a b => b - a ≤ IDLE_TIMEOUT_MS) p.time
        (rest.map Ping.time) := by
      cases hchain with
      | cons _ h => exact h
    have := runPings_extend L F rest { s with lastActivityTime := p.time } acc
      htr hL hF (fun q hq => hall q (by simp [hq])) hchain'
    simp only [List.foldl_cons, hstep, this, lastPingTime]

/-- C1: for every nonempty sequence of pings with a constant language id and
file name in which every gap between consecutive pings is at most
`IDLE_TIMEOUT`, no session is emitted while the pings are processed, and
closing the tracker afterwards (focus loss, editor change, heartbeat or
dispose all call `endCurrentSession`) produces exactly one session, whose
`startTime` is the first ping's timestamp and whose `endTime` is the last
ping's timestamp; it is handed to `saveSession` precisely when its duration
reaches `MIN_SESSION_SECONDS`. -/
theorem single_session_of_small_gaps (L F : String) (p : Ping) (rest : List Ping)
    (hall : ∀ q ∈ p :: rest, q.languageId = L ∧ q.fileName = F)
    (hgaps : List.Chain (fun a b => b - a ≤ IDLE_TIMEOUT_MS) p.time
      (rest.map Ping.time)) :
    (runPings initialTracker (p :: rest)).2 = [] ∧
    (endCurrentSession (runPings initialTracker (p :: rest)).1).2 =
      (if MIN_SESSION_SECONDS ≤ Int.fdiv (lastPingTime p.time rest - p.time) 1000
       then some { startTime := p.time
                   endTime := lastPingTime p.time rest
                   languageId := L
                   fileName := F
                   durationSeconds :=
                     Int.fdiv (lastPingTime p.time rest - p.time) 1000 }
       else none) := by
  have hstep : pingStep (initialTracker, []) p =
      (startSession initialTracker p.languageId p.fileName p.time, []) := by
    simp [pingStep, recordActivity, initialTracker]
  have hrun : runPings initialTracker (p :: rest) =
      ({ startSession initialTracker p.languageId p.fileName p.time with
         lastActivityTime := lastPingTime p.time rest }, []) := by
    have := runPings_extend L F rest
      (startSession initialTracker p.languageId p.fileName p.time) []
      rfl (hall p (by simp)).1 (hall p (by simp)).2
      (fun q hq => hall q (by simp [hq]))
      (by simpa [startSession] using hgaps)
    simpa [runPings, hstep, startSession] using this
  refine ⟨by simp [hrun], ?_⟩
  rw [hrun]
  simp only [endCurrentSession, startSession, initialTracker]
  rw [(hall p (by simp)).1, (hall p (by simp)).2]
  simp

/-- Witness for C1 at a concrete input: pings at 0 ms and 120000 ms on
`go`/`a.go`, gap 120 s ≤ 5 min, then a close: one session `[0, 120000]` of
120 s is recorded. -/
theorem single_session_of_small_gaps_witness :
    (runPings initialTracker
      [⟨"go", "a.go", 0⟩, ⟨"go", "a.go", 120000⟩]).2 = [] ∧
    (endCurrentSession (runPings initialTracker
      [⟨"go", "a.go", 0⟩, ⟨"go", "a.go", 120000⟩]).1).2 =
      some { startTime := 0
             endTime := 120000
             languageId := "go"
             fileName := "a.go"
             durationSeconds := 120 } := by
  have h := single_session_of_small_gaps ("go") ("a.go") ⟨"go", "a.go", 0⟩
    [⟨"go", "a.go", 120000⟩] (by decide)
    (List.Chain.cons (by decide) List.Chain.nil)
  exact ⟨h.1, by rw [h.2]; decide⟩

/-- C2: two runs of pings with the same language id and file name, separated by a
gap strictly greater than `IDLE_TIMEOUT` (and with all gaps inside each run at
most `IDLE_TIMEOUT`), yield exactly two sessions once the tracker is finally
closed: the first ends at the pre-gap ping's timestamp (`lastActivity`, not the
post-gap ping's time), the second starts at the post-gap ping's timestamp; each
is handed to `saveSession` precisely when its duration reaches
`MIN_SESSION_SECONDS`. -/
theorem two_sessions_of_idle_gap (L F : String) (p1 q1 : Ping) (r1 r2 : List Ping)
    (hall : ∀ q ∈ (p1 :: r1) ++ (q1 :: r2), q.languageId = L ∧ q.fileName = F)
    (hgaps1 : List.Chain (fun a b => b - a ≤ IDLE_TIMEOUT_MS) p1.time
      (r1.map Ping.time))
    (hgap : IDLE_TIMEOUT_MS < q1.time - lastPingTime p1.time r1)
    (hgaps2 : List.Chain (fun a b => b - a ≤ IDLE_TIMEOUT_MS) q1.time
      (r2.map Ping.time)) :
    (runPings initialTracker ((p1 :: r1) ++ (q1 :: r2))).2 ++
      (endCurrentSession
        (runPings initialTracker ((p1 :: r1) ++ (q1 :: r2))).1).2.toList =
    (if MIN_SESSION_SECONDS ≤
        Int.fdiv (lastPingTime p1.time r1 - p1.time) 1000
     then [{ startTime := p1.time
             endTime := lastPingTime p1.time r1
             languageId := L
             fileName := F
             durationSeconds :=
               Int.fdiv (lastPingTime p1.time r1 - p1.time) 1000 }]
     else []) ++
    (if MIN_SESSION_SECONDS ≤
        Int.fdiv (lastPingTime q1.time r2 - q1.time) 1000
     then [{ startTime := q1.time
             endTime := lastPingTime q1.time r2
             languageId := L
             fileName := F
             durationSeconds :=
               Int.fdiv (lastPingTime q1.time r2 - q1.time) 1000 }]
     else []) := by
  have hmem1 : ∀ q ∈ p1 :: r1, q.languageId = L ∧ q.fileName = F := fun q hq =>
    hall q (List.mem_append_left _ hq)
  have hmem2 : ∀ q ∈ q1 :: r2, q.languageId = L ∧ q.fileName = F := fun q hq =>
    hall q (List.mem_append_right _ hq)
  have hq1L : q1.languageId = L := (hmem2 q1 (by simp)).1
  have hq1F : q1.fileName = F := (hmem2 q1 (by simp)).2
  -- state after the first run of pings
  have hA : (p1 :: r1).foldl pingStep (initialTracker, []) =
      (({ isTracking := true
          currentLanguage := L
          currentFileName := F
          sessionStartTime := p1.time
          lastActivityTime := lastPingTime p1.time r1 } : TrackerState), []) := by
    have hstep1 : pingStep (initialTracker, []) p1 =
        (startSession initialTracker p1.languageId p1.fileName p1.time, []) := by
      simp [pingStep, recordActivity, initialTracker]
    have hext := runPings_extend L F r1
      (startSession initialTracker p1.languageId p1.fileName p1.time) []
      rfl (hmem1 p1 (by simp)).1 (hmem1 p1 (by simp)).2
      (fun q hq => hmem1 q (by simp [hq]))
      (by simpa [startSession] using hgaps1)
    rw [List.foldl_cons, hstep1, hext]
    simp [startSession, (hmem1 p1 (by simp)).1, (hmem1 p1 (by simp)).2]
  -- the post-gap ping closes the first session and reopens at `q1.time`
  have hstep2 : pingStep
      (({ isTracking := true
          currentLanguage := L
          currentFileName := F
          sessionStartTime := p1.time
          lastActivityTime := lastPingTime p1.time r1 } : TrackerState), []) q1 =
      (({ isTracking := true
          currentLanguage := L
          currentFileName := F
          sessionStartTime := q1.time
          lastActivityTime := q1.time } : TrackerState),
       (if MIN_SESSION_SECONDS ≤
           Int.fdiv (lastPingTime p1.time r1 - p1.time) 1000
        then some { startTime := p1.time
                    endTime := lastPingTime p1.time r1
                    languageId := L
                    fileName := F
                    durationSeconds :=
                      Int.fdiv (lastPingTime p1.time r1 - p1.time) 1000 }
        else none).toList) := by
    simp only [pingStep, recordActivity, hq1L, hq1F]
    rw [if_neg (by simp), if_neg (by simp),
      if_pos (by simpa using hgap)]
    simp [endCurrentSession, startSession]
  -- run the second segment and close
  have hB := runPings_extend L F r2
    ({ isTracking := true
       currentLanguage := L
       currentFileName := F
       sessionStartTime := q1.time
       lastActivityTime := q1.time } : TrackerState)
    ((if MIN_SESSION_SECONDS ≤
         Int.fdiv (lastPingTime p1.time r1 - p1.time) 1000
      then some { startTime := p1.time
                  endTime := lastPingTime p1.time r1
                  languageId := L
                  fileName := F
                  durationSeconds :=
                    Int.fdiv (lastPingTime p1.time r1 - p1.time) 1000 }
      else none).toList)
    rfl rfl rfl (fun q hq => hmem2 q (by simp [hq])) (by simpa using hgaps2)
  have hrun : runPings initialTracker ((p1 :: r1) ++ (q1 :: r2)) =
      (({ isTracking := true
          currentLanguage := L
          currentFileName := F
          sessionStartTime := q1.time
          lastActivityTime := lastPingTime q1.time r2 } : TrackerState),
       (if MIN_SESSION_SECONDS ≤
           Int.fdiv (lastPingTime p1.time r1 - p1.time) 1000
        then some { startTime := p1.time
                    endTime := lastPingTime p1.time r1
                    languageId := L
                    fileName := F
                    durationSeconds :=
                      Int.fdiv (lastPingTime p1.time r1 - p1.time) 1000 }
        else none).toList) := by
    rw [runPings, List.foldl_append, hA, List.foldl_cons, hstep2, hB]
  rw [hrun]
  simp only [endCurrentSession]
  split_ifs <;> simp_all

/-- Witness for C2 at a concrete input: pings at 0 and 60000 ms, then a
340000 ms gap (> 5 min), then pings at 400000 and 460000 ms, all on
`go`/`a.go`: exactly the two sessions `[0, 60000]` and `[400000, 460000]`
are recorded. -/
theorem two_sessions_of_idle_gap_witness :
    (runPings initialTracker
        [⟨"go", "a.go", 0⟩, ⟨"go", "a.go", 60000⟩,
         ⟨"go", "a.go", 400000⟩, ⟨"go", "a.go", 460000⟩]).2 ++
      (endCurrentSession (runPings initialTracker
        [⟨"go", "a.go", 0⟩, ⟨"go", "a.go", 60000⟩,
         ⟨"go", "a.go", 400000⟩, ⟨"go", "a.go", 460000⟩]).1).2.toList =
    [{ startTime := 0
       endTime := 60000
       languageId := "go"
       fileName := "a.go"
       durationSeconds := 60 },
     { startTime := 400000
       endTime := 460000
       languageId := "go"
       fileName := "a.go"
       durationSeconds := 60 }] := by
  have h := two_sessions_of_idle_gap ("go") ("a.go")
    ⟨"go", "a.go", 0⟩ ⟨"go", "a.go", 400000⟩
    [⟨"go", "a.go", 60000⟩] [⟨"go", "a.go", 460000⟩]
    (by decide)
    (List.Chain.cons (by decide) List.Chain.nil)
    (by decide)
    (List.Chain.cons (by decide) List.Chain.nil)
  rw [show ((⟨"go", "a.go", 0⟩ : Ping) :: [⟨"go", "a.go", 60000⟩]) ++
      ((⟨"go", "a.go", 400000⟩ : Ping) :: [⟨"go", "a.go", 460000⟩]) =
      [⟨"go", "a.go", 0⟩, ⟨"go", "a.go", 60000⟩,
       ⟨"go", "a.go", 400000⟩, ⟨"go", "a.go", 460000⟩] from rfl] at h
  rw [h]
  decide

theorem bumpLang_sum (lang : String) (d : Int) :
    ∀ m : List (String × Int),
      ((bumpLang m lang d).map Prod.snd).sum = (m.map Prod.snd).sum + d
  | [] => by simp [bumpLang]
  | (k, v) :: rest => by
    by_cases h : k = lang
    · simp [bumpLang, h]
      ring
    · simp [bumpLang, h, bumpLang_sum lang d rest]
      ring

/-- C3: the `DailyAggregate` invariant.  First, every `recordSession`
(`applySession`) preserves `totalSeconds = Σ perCategorySeconds = Σ session
durations`; second, any aggregate built purely by folding recorded sessions
into the empty aggregate satisfies it. -/
theorem recordSession_invariant :
    (∀ (a : DailyEditStats) (s : EditSession),
      a.totalSeconds = ((a.languageStats.map Prod.snd).sum) →
      a.totalSeconds = ((a.sessions.map EditSession.durationSeconds).sum) →
      (applySession a s).totalSeconds =
          (((applySession a s).languageStats.map Prod.snd).sum) ∧
        (applySession a s).totalSeconds =
          (((applySession a s).sessions.map EditSession.durationSeconds).sum)) ∧
    (∀ (dateKey : Int) (l : List EditSession),
      (l.foldl applySession (emptyDailyStats dateKey)).totalSeconds =
          (((l.foldl applySession (emptyDailyStats dateKey)).languageStats.map
            Prod.snd).sum) ∧
        (l.foldl applySession (emptyDailyStats dateKey)).totalSeconds =
          (((l.foldl applySession (emptyDailyStats dateKey)).sessions.map
            EditSession.durationSeconds).sum)) := by
  have step : ∀ (a : DailyEditStats) (s : EditSession),
      a.totalSeconds = ((a.languageStats.map Prod.snd).sum) →
      a.totalSeconds = ((a.sessions.map EditSession.durationSeconds).sum) →
      (applySession a s).totalSeconds =
          (((applySession a s).languageStats.map Prod.snd).sum) ∧
        (applySession a s).totalSeconds =
          (((applySession a s).sessions.map EditSession.durationSeconds).sum) := by
    intro a s h1 h2
    constructor
    · simp [applySession, bumpLang_sum, h1]
    · simp [applySession, h2]
  refine ⟨step, fun dateKey l => ?_⟩
  suffices h : ∀ (a : DailyEditStats),
      a.totalSeconds = ((a.languageStats.map Prod.snd).sum) →
      a.totalSeconds = ((a.sessions.map EditSession.durationSeconds).sum) →
      (l.foldl applySession a).totalSeconds =
          (((l.foldl applySession a).languageStats.map Prod.snd).sum) ∧
        (l.foldl applySession a).totalSeconds =
          (((l.foldl applySession a).sessions.map
            EditSession.durationSeconds).sum) by
    exact h (emptyDailyStats dateKey) (by simp [emptyDailyStats])
      (by simp [emptyDailyStats])
  induction l with
  | nil => intro a h1 h2; exact ⟨h1, h2⟩
  | cons s rest ih =>
    intro a h1 h2
    exact ih (applySession a s) (step a s h1 h2).1 (step a s h1 h2).2

/-- Witness for C3 at a concrete input: one recorded `go` session of 120 s on
top of an aggregate already holding 60 s of `rust`. -/
theorem recordSession_invariant_witness :
    (({ date := 0
        totalSeconds := 60
        languageStats := [("rust", 60)]
        sessions := [{ startTime := 0
                       endTime := 60000
                       languageId := "rust"
                       fileName := "m.rs"
                       durationSeconds := 60 }] } : DailyEditStats).totalSeconds =
        (((({ date := 0
              totalSeconds := 60
              languageStats := [("rust", 60)]
              sessions := [{ startTime := 0
                             endTime := 60000
                             languageId := "rust"
                             fileName := "m.rs"
                             durationSeconds := 60 }] } : DailyEditStats)).languageStats.map
          Prod.snd).sum)) ∧
    (applySession
        { date := 0
          totalSeconds := 60
          languageStats := [("rust", 60)]
          sessions := [{ startTime := 0
                         endTime := 60000
                         languageId := "rust"
                         fileName := "m.rs"
                         durationSeconds := 60 }] }
        { startTime := 100000
          endTime := 220000
          languageId := "go"
          fileName := "a.go"
          durationSeconds := 120 }).totalSeconds =
      (((applySession
          { date := 0
            totalSeconds := 60
            languageStats := [("rust", 60)]
            sessions := [{ startTime := 0
                           endTime := 60000
                           languageId := "rust"
                           fileName := "m.rs"
                           durationSeconds := 60 }] }
          { startTime := 100000
            endTime := 220000
            languageId := "go"
            fileName := "a.go"
            durationSeconds := 120 }).languageStats.map Prod.snd).sum) := by
  refine ⟨by decide, ?_⟩
  exact (recordSession_invariant.1 _ _ (by decide) (by decide)).1

/-- Counterexample for C4 at concrete inputs.  On the spec's own example
aggregate `{go: 120, rust: 0}` the function returns two entries, not one:
zero-second categories are not excluded.  And on `{b: 5, a: 5}` the tie is
left in insertion order `b, a`, not category-ascending order `a, b`. -/
theorem getLanguagePercentages_claim_cex :
    (getLanguagePercentages
        { date := 0
          totalSeconds := 120
          languageStats := [("go", 120), ("rust", 0)]
          sessions := [] }).length = 2 ∧
    (getLanguagePercentages
        { date := 0
          totalSeconds := 120
          languageStats := [("go", 120), ("rust", 0)]
          sessions := [] }).map LangShare.seconds = [120, 0] ∧
    (getLanguagePercentages
        { date := 0
          totalSeconds := 10
          languageStats := [("b", 5), ("a", 5)]
          sessions := [] }).map LangShare.language = ["b", "a"] := by
  refine ⟨?_, ?_, ?_⟩ <;> decide

/-- C4 as amended: `getLanguagePercentages` returns the empty sequence when
`totalSeconds = 0`; otherwise it emits one entry for every category in
`languageStats` (zero-second categories included), each with `percentage =
100 * seconds / totalSeconds`, sorted by seconds descending with ties kept in
insertion order (the stable-sort output is a permutation of the mapped
entries). -/
theorem getLanguagePercentages_amended (stats : DailyEditStats) :
    (stats.totalSeconds = 0 → getLanguagePercentages stats = []) ∧
    (stats.totalSeconds ≠ 0 →
      (getLanguagePercentages stats).Perm
          (stats.languageStats.map (mkLangShare stats.totalSeconds)) ∧
        (getLanguagePercentages stats).length = stats.languageStats.length ∧
        List.Sorted shareRel (getLanguagePercentages stats) ∧
        ∀ e ∈ getLanguagePercentages stats,
          e.percentage = ((e.seconds : ℚ) / (stats.totalSeconds : ℚ)) * 100) := by
  constructor
  · intro h
    simp [getLanguagePercentages, h]
  · intro h
    have hdef : getLanguagePercentages stats = List.insertionSort shareRel
        (stats.languageStats.map (mkLangShare stats.totalSeconds)) := by
      simp [getLanguagePercentages, h]
    have hperm : (getLanguagePercentages stats).Perm
        (stats.languageStats.map (mkLangShare stats.totalSeconds)) := by
      rw [hdef]; exact List.perm_insertionSort shareRel _
    refine ⟨hperm, ?_, ?_, ?_⟩
    · rw [hperm.length_eq, List.length_map]
    · rw [hdef]; exact List.sorted_insertionSort shareRel _
    · intro e he
      have : e ∈ stats.languageStats.map (mkLangShare stats.totalSeconds) :=
        hperm.mem_iff.mp he
      rcases List.mem_map.mp this with ⟨entry, _, rfl⟩
      rfl

/-- Witness for C4's amended statement on the aggregate `{go: 120, rust: 0}`
with `totalSeconds = 120`. -/
theorem getLanguagePercentages_amended_witness :
    (getLanguagePercentages
        { date := 0
          totalSeconds := 120
          languageStats := [("go", 120), ("rust", 0)]
          sessions := [] }).length =
      ([("go", 120), ("rust", 0)] : List (String × Int)).length ∧
    getLanguagePercentages (emptyDailyStats 0) = [] := by
  constructor
  · exact ((getLanguagePercentages_amended
      { date := 0
        totalSeconds := 120
        languageStats := [("go", 120), ("rust", 0)]
        sessions := [] }).2 (by decide)).2.1
  · exact (getLanguagePercentages_amended (emptyDailyStats 0)).1 rfl

theorem foldl_clearDailyStats_eq_nil :
    ∀ (keys : List Int) (st : Store), (∀ p ∈ st, p.1 ∈ keys) →
      keys.foldl clearDailyStats st = []
  | [], st, h => by
    cases st with
    | nil => rfl
    | cons p rest => exact absurd (h p (by simp)) (by simp)
  | k :: ks, st, h => by
    rw [List.foldl_cons]
    refine foldl_clearDailyStats_eq_nil ks (clearDailyStats st k) ?_
    intro p hp
    have hmem : p ∈ st := List.mem_of_mem_filter hp
    have hne : p.1 ≠ k := by
      have := List.of_mem_filter (l := st) hp
      simpa using this
    rcases List.mem_cons.mp (h p hmem) with heq | hks
    · exact absurd heq hne
    · exact hks

/-- C10: after `clearAllStats` the store is empty: `getAllStoredDates` returns
the empty sequence and `getDailyStats` returns the fresh zero aggregate for
every date (in particular every previously stored one). -/
theorem clearAllStats_empties (st : Store) :
    getAllStoredDates (clearAllStats st) = [] ∧
    ∀ dateKey : Int, getDailyStats (clearAllStats st) dateKey =
      emptyDailyStats dateKey := by
  have hnil : clearAllStats st = [] := by
    refine foldl_clearDailyStats_eq_nil (getAllStoredDates st) st ?_
    intro p hp
    have : p.1 ∈ st.map Prod.fst := List.mem_map_of_mem Prod.fst hp
    exact ((List.perm_insertionSort (fun a b : Int => a ≤ b)
      (st.map Prod.fst)).mem_iff).mpr this
  rw [hnil]
  exact ⟨rfl, fun _ => rfl⟩

/-- Counterexample for C5 at a concrete input: tracker tracking `go` with
`sessionStartTime = 0` and `lastActivityTime = 120000`, snapshot taken at
`now = 400000` over an empty store.  The claim's provisional duration
`now − sessionStart` is 400 s, but the snapshot holds 120 s: the source uses
`lastActivityTime − sessionStartTime`, not `now − sessionStart`. -/
theorem getTodayStats_claim_cex :
    (getTodayStats []
        { isTracking := true
          currentLanguage := "go"
          currentFileName := "a.go"
          sessionStartTime := 0
          lastActivityTime := 120000 } 400000).totalSeconds = 120 ∧
    Int.fdiv (400000 - 0) 1000 = 400 ∧ (120 : Int) ≠ 400 := by
  refine ⟨?_, by decide, by decide⟩
  decide

/-- C5 as amended: when the tracker is `Tracking`, `getTodayStats` returns the
persisted aggregate for today's key with the provisional duration
`lastActivityTime − sessionStartTime` (in whole seconds) folded into
`totalSeconds` and the current language's entry of the returned copy, provided
that duration reaches `MIN_SESSION_SECONDS`; the store argument is left
untouched, so the provisional amount is never written back. -/
theorem getTodayStats_amended (st : Store) (s : TrackerState) (now : Int)
    (htrack : s.isTracking = true)
    (hmin : MIN_SESSION_SECONDS ≤
      Int.fdiv (s.lastActivityTime - s.sessionStartTime) 1000) :
    getTodayStats st s now =
      { getDailyStats st (getDateKey now) with
        totalSeconds := (getDailyStats st (getDateKey now)).totalSeconds +
          Int.fdiv (s.lastActivityTime - s.sessionStartTime) 1000
        languageStats := bumpLang
          (getDailyStats st (getDateKey now)).languageStats
          s.currentLanguage
          (Int.fdiv (s.lastActivityTime - s.sessionStartTime) 1000) } := by
  simp only [getTodayStats, htrack, if_true]
  rw [if_pos hmin]

/-- Witness for C5's amended statement: store holding 120 s of `go` for day 0,
tracker tracking `go` for 60 s, snapshot at `now = 400000` (still day 0). -/
theorem getTodayStats_amended_witness :
    getTodayStats
        [(0, { date := 0
               totalSeconds := 120
               languageStats := [("go", 120)]
               sessions := [] })]
        { isTracking := true
          currentLanguage := "go"
          currentFileName := "a.go"
          sessionStartTime := 0
          lastActivityTime := 60000 } 400000 =
      { date := 0
        totalSeconds := 180
        languageStats := [("go", 180)]
        sessions := [] } := by
  have h := getTodayStats_amended
    [(0, { date := 0
           totalSeconds := 120
           languageStats := [("go", 120)]
           sessions := [] })]
    { isTracking := true
      currentLanguage := "go"
      currentFileName := "a.go"
      sessionStartTime := 0
      lastActivityTime := 60000 } 400000 rfl (by decide)
  rw [h]
  decide

/-- Counterexample for C6 at a concrete input: a store holding 120 s for day 0;
a caller sets `totalSeconds := 999` on the aggregate `getDailyStats` returned;
a subsequent read of day 0 sees 999, not the unmutated 120. -/
theorem getDailyStats_no_copy_cex :
    (getDailyStats
        (mutateViaGetDailyStats
          [(0, { date := 0
                 totalSeconds := 120
                 languageStats := [("go", 120)]
                 sessions := [] })]
          0 (fun a => { a with totalSeconds := 999 }))
        0).totalSeconds = 999 ∧
    (999 : Int) ≠ 120 := by
  exact ⟨by decide, by decide⟩

theorem storeGet_storeSet_self (dateKey : Int) (v : DailyEditStats) :
    ∀ st : Store, storeGet (storeSet st dateKey v) dateKey = some v
  | [] => by simp [storeGet, storeSet, List.lookup]
  | (k, w) :: rest => by
    by_cases h : k = dateKey
    · simp [storeSet, h, storeGet, List.lookup]
    · have hb : (dateKey == k) = false := beq_false_of_ne (Ne.symm h)
      simp only [storeSet, if_neg h, storeGet, List.lookup, hb]
      exact storeGet_storeSet_self dateKey v rest

theorem storeGet_storeSet_other (dateKey k' : Int) (v : DailyEditStats)
    (hne : k' ≠ dateKey) :
    ∀ st : Store, storeGet (storeSet st dateKey v) k' = storeGet st k'
  | [] => by
    simp [storeGet, storeSet, List.lookup, beq_false_of_ne hne]
  | (k, w) :: rest => by
    by_cases h : k = dateKey
    · subst h
      simp [storeSet, storeGet, List.lookup, beq_false_of_ne hne]
    · simp only [storeSet, if_neg h, storeGet, List.lookup]
      by_cases h' : k' = k
      · simp [h']
      · simp only [beq_false_of_ne h']
        exact storeGet_storeSet_other dateKey k' v hne rest

/-- C6 as amended: `getDailyStats` does not return a deep copy.  For a stored
`dateKey`, an in-place caller mutation `m` of the returned aggregate is visible
to every subsequent `getDailyStats` read of that `dateKey` (the read returns
`m` of the stored value, not the unmutated value); reads of other day keys,
and mutations of the fresh aggregate returned for an absent `dateKey`, leave
the store unaffected.  (`getTodayStats` is the one read that does copy: it
returns a freshly built record, see `getTodayStats`.) -/
theorem getDailyStats_alias_semantics (st : Store) (dateKey : Int)
    (m : DailyEditStats → DailyEditStats) :
    (∀ v, storeGet st dateKey = some v →
      getDailyStats (mutateViaGetDailyStats st dateKey m) dateKey = m v) ∧
    (storeGet st dateKey = none → mutateViaGetDailyStats st dateKey m = st) ∧
    (∀ k', k' ≠ dateKey →
      getDailyStats (mutateViaGetDailyStats st dateKey m) k' =
        getDailyStats st k') := by
  refine ⟨?_, ?_, ?_⟩
  · intro v hv
    simp only [mutateViaGetDailyStats, hv, saveDailyStats, getDailyStats]
    rw [storeGet_storeSet_self]
  · intro hv
    simp [mutateViaGetDailyStats, hv]
  · intro k' hk'
    cases hv : storeGet st dateKey with
    | none => simp [mutateViaGetDailyStats, hv]
    | some v =>
      simp only [mutateViaGetDailyStats, hv, saveDailyStats, getDailyStats]
      rw [storeGet_storeSet_other dateKey k' (m v) hk']

/-- Witness for C6's amended statement: the mutated value is what a subsequent
read of day 0 returns, and a read of day 1 is unaffected. -/
theorem getDailyStats_alias_semantics_witness :
    getDailyStats
        (mutateViaGetDailyStats
          [(0, { date := 0
                 totalSeconds := 120
                 languageStats := [("go", 120)]
                 sessions := [] })]
          0 (fun a => { a with totalSeconds := 999 }))
        0 =
      { date := 0
        totalSeconds := 999
        languageStats := [("go", 120)]
        sessions := [] } ∧
    getDailyStats
        (mutateViaGetDailyStats
          [(0, { date := 0
                 totalSeconds := 120
                 languageStats := [("go", 120)]
                 sessions := [] })]
          0 (fun a => { a with totalSeconds := 999 }))
        1 =
      getDailyStats
        [(0, { date := 0
               totalSeconds := 120
               languageStats := [("go", 120)]
               sessions := [] })]
        1 := by
  constructor
  · exact (getDailyStats_alias_semantics _ 0 _).1
      { date := 0
        totalSeconds := 120
        languageStats := [("go", 120)]
        sessions := [] } rfl
  · exact (getDailyStats_alias_semantics _ 0 _).2.2 1 (by decide)

/-- Counterexample for C8 at the claim's own example input: `formatDuration 45`
is the Chinese-labelled `45秒`, not the ASCII `45s` the claim states (and
likewise `2m5s` and `1h1m` are not produced). -/
theorem formatDuration_claim_cex :
    formatDuration 45 ≠ "45s" ∧ formatDuration 45 = "45秒" ∧
    formatDuration 125 ≠ "2m5s" ∧ formatDuration 3661 ≠ "1h1m" := by
  refine ⟨by decide, by decide, by decide, by decide⟩

/-- C8 as amended: the threshold structure of the claim holds exactly, with the
source's unit labels: `seconds < 60` renders seconds only; `60 ≤ seconds <
3600` renders minutes and seconds; `seconds ≥ 3600` renders hours and minutes
with the leftover seconds dropped. -/
theorem formatDuration_cases (seconds : Nat) :
    (seconds < 60 → formatDuration seconds = toString seconds ++ "秒") ∧
    (60 ≤ seconds → seconds < 3600 →
      formatDuration seconds =
        toString (seconds / 60) ++ "分钟" ++ toString (seconds % 60) ++ "秒") ∧
    (3600 ≤ seconds →
      formatDuration seconds =
        toString (seconds / 3600) ++ "小时" ++
          toString ((seconds % 3600) / 60) ++ "分钟") := by
  refine ⟨?_, ?_, ?_⟩
  · intro h
    have hh : seconds / 3600 = 0 := Nat.div_eq_of_lt (by omega)
    have hm3 : seconds % 3600 = seconds := Nat.mod_eq_of_lt (by omega)
    have hm : (seconds % 3600) / 60 = 0 := by rw [hm3]; exact Nat.div_eq_of_lt h
    have hs : seconds % 60 = seconds := Nat.mod_eq_of_lt h
    simp [formatDuration, hh, hm, hs]
  · intro h1 h2
    have hh : seconds / 3600 = 0 := Nat.div_eq_of_lt h2
    have hm3 : seconds % 3600 = seconds := Nat.mod_eq_of_lt h2
    have hm : 0 < seconds / 60 := Nat.div_pos h1 (by omega)
    simp only [formatDuration, hh, Nat.lt_irrefl, if_false, hm3]
    rw [if_pos hm]
  · intro h
    have hh : 0 < seconds / 3600 := Nat.div_pos h (by omega)
    simp only [formatDuration]
    rw [if_pos hh]

/-- Witness for C8's amended statement at the claim's three example inputs. -/
theorem formatDuration_cases_witness :
    formatDuration 45 = "45秒" ∧ formatDuration 125 = "2分钟5秒" ∧
    formatDuration 3661 = "1小时1分钟" := by
  refine ⟨?_, ?_, ?_⟩
  · have h := (formatDuration_cases 45).1 (by decide)
    rw [h]; rfl
  · have h := (formatDuration_cases 125).2.1 (by decide) (by decide)
    rw [h]; rfl
  · have h := (formatDuration_cases 3661).2.2 (by decide)
    rw [h]; rfl

theorem finishRecord_foldl (groups : List (Int × List CommitDetail)) :
    ∀ acc : WorkRecord,
      (groups.foldl
        (fun acc g =>
          { acc with
            dailyWork := acc.dailyWork ++ [mkDayWork g.1 g.2]
            totalHours := acc.totalHours + (mkDayWork g.1 g.2).hours })
        acc).dailyWork =
        acc.dailyWork ++ groups.map (fun g => mkDayWork g.1 g.2) ∧
      (groups.foldl
        (fun acc g =>
          { acc with
            dailyWork := acc.dailyWork ++ [mkDayWork g.1 g.2]
            totalHours := acc.totalHours + (mkDayWork g.1 g.2).hours })
        acc).totalHours =
        acc.totalHours +
          ((groups.map (fun g => mkDayWork g.1 g.2)).map DayWork.hours).sum := by
  induction groups with
  | nil => intro acc; simp
  | cons g rest ih =>
    intro acc
    rw [List.foldl_cons]
    refine ⟨?_, ?_⟩
    · rw [(ih _).1]
      simp
    · rw [(ih _).2]
      simp
      ring

theorem groupByAuthor_unfinished (log : List RawCommit) :
    ∀ r ∈ groupByAuthor log, r.dailyWork = [] ∧ r.totalHours = 0 := by
  suffices h : ∀ (l : List RawCommit) (recs : List WorkRecord),
      (∀ r ∈ recs, r.dailyWork = [] ∧ r.totalHours = 0) →
      ∀ r ∈ l.foldl addCommit recs, r.dailyWork = [] ∧ r.totalHours = 0 from
    h log [] (by simp)
  have step : ∀ (recs : List WorkRecord) (c : RawCommit),
      (∀ r ∈ recs, r.dailyWork = [] ∧ r.totalHours = 0) →
      ∀ r ∈ addCommit recs c, r.dailyWork = [] ∧ r.totalHours = 0 := by
    intro recs c
    induction recs with
    | nil =>
      intro _ r hr
      simp only [addCommit, List.mem_singleton] at hr
      subst hr
      exact ⟨rfl, rfl⟩
    | cons r0 rest ih =>
      intro h r hr
      simp only [addCommit] at hr
      by_cases hcase : r0.author = c.author_name
      · rw [if_pos hcase] at hr
        rcases List.mem_cons.mp hr with rfl | hmem
        · exact h r0 (by simp)
        · exact h r (by simp [hmem])
      · rw [if_neg hcase] at hr
        rcases List.mem_cons.mp hr with rfl | hmem
        · exact h r (by simp)
        · exact ih (fun q hq => h q (by simp [hq])) r hmem
  intro l
  induction l with
  | nil => intro recs h; simpa using h
  | cons c rest ih =>
    intro recs h
    rw [List.foldl_cons]
    exact ih (addCommit recs c) (step recs c h)

/-- C7: in commit-log aggregation, every day group of every author record has
`hours = (lastTimestamp − firstTimestamp) / 3600000` (the per-second form of
the claim's `(last − first) / 3600`), a day with exactly one commit yields
`hours = 0`, and the author's `totalHours` is the sum of `hours` over that
author's days. -/
theorem commitLog_day_hours (log : List RawCommit) :
    ∀ rec ∈ aggregateCommitLog log,
      (∀ dw ∈ rec.dailyWork,
        dw.hours = ((dw.lastCommit - dw.firstCommit : Int) : ℚ) /
            (1000 * 60 * 60) ∧
          (dw.commits.length = 1 → dw.hours = 0)) ∧
      rec.totalHours = (rec.dailyWork.map DayWork.hours).sum := by
  intro rec hrec
  rcases List.mem_map.mp hrec with ⟨r, hr, rfl⟩
  have hbase := groupByAuthor_unfinished log r hr
  have hfold := finishRecord_foldl
    (buildDayMap (List.insertionSort detailRel r.commitDetails))
    { r with commitDetails := List.insertionSort detailRel r.commitDetails }
  have hdw : (finishRecord r).dailyWork =
      (buildDayMap (List.insertionSort detailRel r.commitDetails)).map
        (fun g => mkDayWork g.1 g.2) := by
    rw [show (finishRecord r).dailyWork = _ from hfold.1]
    simp [hbase.1]
  have hth : (finishRecord r).totalHours =
      (((buildDayMap (List.insertionSort detailRel r.commitDetails)).map
        (fun g => mkDayWork g.1 g.2)).map DayWork.hours).sum := by
    rw [show (finishRecord r).totalHours = _ from hfold.2]
    simp [hbase.2]
  constructor
  · intro dw hdwmem
    rw [hdw] at hdwmem
    rcases List.mem_map.mp hdwmem with ⟨g, _, rfl⟩
    refine ⟨rfl, ?_⟩
    intro hlen
    rcases List.length_eq_one.mp (by simpa [mkDayWork] using hlen) with ⟨c, hc⟩
    simp [mkDayWork, hc, headDate, lastDate]
  · rw [hth, hdw]

/-- Witness for C7 at the concrete log `exampleLog`: the day record's `hours`
equals the elapsed-time formula and the author's `totalHours` equals the sum
of the day hours. -/
theorem commitLog_day_hours_witness :
    exampleDay.hours =
      ((exampleDay.lastCommit - exampleDay.firstCommit : Int) : ℚ) /
        (1000 * 60 * 60) ∧
    exampleRecord.totalHours =
      (exampleRecord.dailyWork.map DayWork.hours).sum := by
  have h := commitLog_day_hours exampleLog exampleRecord (List.head_mem _)
  exact ⟨(h.1 exampleDay (List.head_mem _)).1, h.2⟩

/-- Counterexample for C9 at a concrete input: a log holding one malformed
record (no author, no date) and one well-formed record.  The claim says the
malformed record is skipped, so only `alice`'s group would exist; in fact the
malformed record is aggregated into its own group under the missing-author
key, giving two groups. -/
theorem malformed_record_not_skipped_cex :
    (groupLogByAuthor
        [{ author_name := none, date := none, message := "m0", hash := "h0" },
         { author_name := some ("alice"), date := some 1000, message := "m1",
           hash := "h1" }]).length = 2 ∧
    ({ author := none
       commits := 1
       commitDetails := [(none, "m0", "h0")] } : RawRecord) ∈
      groupLogByAuthor
        [{ author_name := none, date := none, message := "m0", hash := "h0" },
         { author_name := some ("alice"), date := some 1000, message := "m1",
           hash := "h1" }] := by
  exact ⟨by decide, by decide⟩

theorem addLogEntry_commits_sum :
    ∀ (recs : List RawRecord) (c : LogEntry),
      ((addLogEntry recs c).map RawRecord.commits).sum =
        (recs.map RawRecord.commits).sum + 1
  | [], c => by simp [addLogEntry]
  | r :: rest, c => by
    by_cases h : r.author = c.author_name
    · simp [addLogEntry, h]
      ring
    · simp [addLogEntry, h, addLogEntry_commits_sum rest c]
      ring

theorem addLogEntry_keeps (recs : List RawRecord) (c : LogEntry)
    (P : Option String → Option Int × String × String → Prop) :
    (∃ r ∈ recs, ∃ d ∈ r.commitDetails, P r.author d) →
    ∃ r ∈ addLogEntry recs c, ∃ d ∈ r.commitDetails, P r.author d := by
  induction recs with
  | nil => rintro ⟨r, hr, _⟩; exact absurd hr (by simp)
  | cons r0 rest ih =>
    rintro ⟨r, hr, d, hd, hP⟩
    simp only [addLogEntry]
    by_cases h : r0.author = c.author_name
    · rw [if_pos h]
      rcases List.mem_cons.mp hr with rfl | hmem
      · exact ⟨_, List.mem_cons_self _ _, d, List.mem_append_left _ hd, hP⟩
      · exact ⟨r, by simp [hmem], d, hd, hP⟩
    · rw [if_neg h]
      rcases List.mem_cons.mp hr with rfl | hmem
      · exact ⟨r, by simp, d, hd, hP⟩
      · rcases ih ⟨r, hmem, d, hd, hP⟩ with ⟨r', hr', d', hd', hP'⟩
        exact ⟨r', by simp [hr'], d', hd', hP'⟩

theorem addLogEntry_adds :
    ∀ (recs : List RawRecord) (c : LogEntry),
      ∃ r ∈ addLogEntry recs c, r.author = c.author_name ∧
        (c.date, c.message, c.hash) ∈ r.commitDetails
  | [], c =>
    ⟨{ author := c.author_name
       commits := 1
       commitDetails := [(c.date, c.message, c.hash)] },
      by simp [addLogEntry], rfl, by simp⟩
  | r0 :: rest, c => by
    simp only [addLogEntry]
    by_cases h : r0.author = c.author_name
    · rw [if_pos h]
      exact ⟨_, List.mem_cons_self _ _, h, List.mem_append_right _ (by simp)⟩
    · rw [if_neg h]
      rcases addLogEntry_adds rest c with ⟨r, hr, ha, hd⟩
      exact ⟨r, by simp [hr], ha, hd⟩

/-- C9 as amended: the grouping loop performs no malformed-record filtering
and never aborts: for every input log (malformed records included) it is a
total function whose group commit counts sum to the full log length, and every
record of the log — also one missing its author or timestamp — lands in the
group of its (possibly missing) author with its (possibly invalid) date. -/
theorem groupLog_total (log : List LogEntry) :
    ((groupLogByAuthor log).map RawRecord.commits).sum = log.length ∧
    ∀ c ∈ log, ∃ r ∈ groupLogByAuthor log, ∃ d ∈ r.commitDetails,
      r.author = c.author_name ∧ d = (c.date, c.message, c.hash) := by
  constructor
  · suffices h : ∀ (l : List LogEntry) (recs : List RawRecord),
        ((l.foldl addLogEntry recs).map RawRecord.commits).sum =
          (recs.map RawRecord.commits).sum + l.length by
      simpa using h log []
    intro l
    induction l with
    | nil => intro recs; simp
    | cons c rest ih =>
      intro recs
      rw [List.foldl_cons, ih (addLogEntry recs c), addLogEntry_commits_sum]
      simp only [List.length_cons]
      omega
  · suffices h : ∀ (l : List LogEntry) (recs : List RawRecord), ∀ c ∈ l,
        ∃ r ∈ l.foldl addLogEntry recs, ∃ d ∈ r.commitDetails,
          r.author = c.author_name ∧ d = (c.date, c.message, c.hash) from
      h log []
    have keep : ∀ (l : List LogEntry) (recs : List RawRecord) (c : LogEntry),
        (∃ r ∈ recs, ∃ d ∈ r.commitDetails,
          r.author = c.author_name ∧ d = (c.date, c.message, c.hash)) →
        ∃ r ∈ l.foldl addLogEntry recs, ∃ d ∈ r.commitDetails,
          r.author = c.author_name ∧ d = (c.date, c.message, c.hash) := by
      intro l
      induction l with
      | nil => intro recs c h; simpa using h
      | cons c0 rest ih =>
        intro recs c h
        rw [List.foldl_cons]
        exact ih (addLogEntry recs c0) c
          (addLogEntry_keeps recs c0
            (fun a d => a = c.author_name ∧ d = (c.date, c.message, c.hash)) h)
    intro l
    induction l with
    | nil => intro recs c hc; exact absurd hc (by simp)
    | cons c0 rest ih =>
      intro recs c hc
      rw [List.foldl_cons]
      rcases List.mem_cons.mp hc with rfl | hmem
      · refine keep rest (addLogEntry recs c) c ?_
        rcases addLogEntry_adds recs c with ⟨r, hr, ha, hd⟩
        exact ⟨r, hr, (c.date, c.message, c.hash), hd, ha, rfl⟩
      · exact ih (addLogEntry recs c0) c hmem

/-- Witness for C9's amended statement on the concrete malformed-plus-valid
log: the commit counts sum to the log length 2, and the malformed entry itself
(missing author, missing date) is present in its group's details. -/
theorem groupLog_total_witness :
    ((groupLogByAuthor
        [{ author_name := none, date := none, message := "m0", hash := "h0" },
         { author_name := some ("alice"), date := some 1000, message := "m1",
           hash := "h1" }]).map RawRecord.commits).sum =
      ([{ author_name := none, date := none, message := "m0", hash := "h0" },
        { author_name := some ("alice"), date := some 1000, message := "m1",
          hash := "h1" }] : List LogEntry).length ∧
    ∃ r ∈ groupLogByAuthor
        [{ author_name := none, date := none, message := "m0", hash := "h0" },
         { author_name := some ("alice"), date := some 1000, message := "m1",
           hash := "h1" }],
      ∃ d ∈ r.commitDetails, r.author = none ∧ d = (none, "m0", "h0") := by
  have h := groupLog_total
    [{ author_name := none, date := none, message := "m0", hash := "h0" },
     { author_name := some ("alice"), date := some 1000, message := "m1",
       hash := "h1" }]
  exact ⟨h.1, h.2
    { author_name := none, date := none, message := "m0", hash := "h0" }
    (by decide)⟩

end WorkHours
